import Mathlib

/-!
Shallow embedding of the core of the `aurora-ray` path tracer
(`src/ray.rs`, `src/hittable.rs`, `src/shapes/sphere.rs`, `src/material.rs`,
`src/camera.rs`, `src/fastrand.rs`).

Modelling conventions:
* `f64` values are modelled as real numbers `ℝ`; `f64::INFINITY` (used only as
  the upper bound of a search interval) is modelled by `Option ℝ` with `none`
  standing for `+∞`.  `u64` values are modelled as `ℕ` with explicit `% 2^64`
  where the source uses wrapping arithmetic.
* Rust's `Range<f64>::contains` (`start <= x && x < end`) becomes `Iv.contains`.
* The ambient random draws (`random_unit_vector()`, `rng.gen::<f64>()`) are
  passed to the scattering functions as explicit parameters, one draw per
  bounce for the integrator.
* The `as u8` cast in `write_color` is applied to values in `[0, 254.745]`,
  where it truncates toward zero; it is modelled by `Int.floor`.
-/

noncomputable section

open scoped Classical

/-- 3-component double-precision vector (`glam::DVec3`). -/
@[ext]
structure Vec3 where
  x : ℝ
  y : ℝ
  z : ℝ
deriving DecidableEq

namespace Vec3

def add (a b : Vec3) : Vec3 := ⟨a.x + b.x, a.y + b.y, a.z + b.z⟩

def sub (a b : Vec3) : Vec3 := ⟨a.x - b.x, a.y - b.y, a.z - b.z⟩

def neg (a : Vec3) : Vec3 := ⟨-a.x, -a.y, -a.z⟩

def smul (r : ℝ) (a : Vec3) : Vec3 := ⟨r * a.x, r * a.y, r * a.z⟩

def cmul (a b : Vec3) : Vec3 := ⟨a.x * b.x, a.y * b.y, a.z * b.z⟩

def divs (a : Vec3) (r : ℝ) : Vec3 := ⟨a.x / r, a.y / r, a.z / r⟩

instance : Add Vec3 := ⟨add⟩

instance : Sub Vec3 := ⟨sub⟩

instance : Neg Vec3 := ⟨neg⟩

instance : SMul ℝ Vec3 := ⟨smul⟩

instance : Mul Vec3 := ⟨cmul⟩

instance : HDiv Vec3 ℝ Vec3 := ⟨divs⟩

instance : Zero Vec3 := ⟨⟨0, 0, 0⟩⟩

def dot (a b : Vec3) : ℝ := a.x * b.x + a.y * b.y + a.z * b.z

def length_squared (a : Vec3) : ℝ := a.dot a

def length (a : Vec3) : ℝ := Real.sqrt (a.dot a)

def normalize (a : Vec3) : Vec3 := a / a.length

@[simp] theorem add_x (a b : Vec3) : (a + b).x = a.x + b.x := rfl

@[simp] theorem add_y (a b : Vec3) : (a + b).y = a.y + b.y := rfl

@[simp] theorem add_z (a b : Vec3) : (a + b).z = a.z + b.z := rfl

@[simp] theorem sub_x (a b : Vec3) : (a - b).x = a.x - b.x := rfl

@[simp] theorem sub_y (a b : Vec3) : (a - b).y = a.y - b.y := rfl

@[simp] theorem sub_z (a b : Vec3) : (a - b).z = a.z - b.z := rfl

@[simp] theorem neg_x (a : Vec3) : (-a).x = -a.x := rfl

@[simp] theorem neg_y (a : Vec3) : (-a).y = -a.y := rfl

@[simp] theorem neg_z (a : Vec3) : (-a).z = -a.z := rfl

@[simp] theorem smul_x (r : ℝ) (a : Vec3) : (r • a).x = r * a.x := rfl

@[simp] theorem smul_y (r : ℝ) (a : Vec3) : (r • a).y = r * a.y := rfl

@[simp] theorem smul_z (r : ℝ) (a : Vec3) : (r • a).z = r * a.z := rfl

@[simp] theorem mul_x (a b : Vec3) : (a * b).x = a.x * b.x := rfl

@[simp] theorem mul_y (a b : Vec3) : (a * b).y = a.y * b.y := rfl

@[simp] theorem mul_z (a b : Vec3) : (a * b).z = a.z * b.z := rfl

@[simp] theorem div_x (a : Vec3) (r : ℝ) : (a / r).x = a.x / r := rfl

@[simp] theorem div_y (a : Vec3) (r : ℝ) : (a / r).y = a.y / r := rfl

@[simp] theorem div_z (a : Vec3) (r : ℝ) : (a / r).z = a.z / r := rfl

@[simp] theorem zero_x : (0 : Vec3).x = 0 := rfl

@[simp] theorem zero_y : (0 : Vec3).y = 0 := rfl

@[simp] theorem zero_z : (0 : Vec3).z = 0 := rfl

theorem dot_self_nonneg (a : Vec3) : 0 ≤ a.dot a := by
  have hx : 0 ≤ a.x * a.x := mul_self_nonneg _
  have hy : 0 ≤ a.y * a.y := mul_self_nonneg _
  have hz : 0 ≤ a.z * a.z := mul_self_nonneg _
  simp only [dot]; linarith

theorem dot_neg_left (a b : Vec3) : (-a).dot b = -(a.dot b) := by
  simp only [dot, neg_x, neg_y, neg_z]; ring

theorem dot_self_pos (a : Vec3) (h : a ≠ 0) : 0 < a.dot a := by
  rcases lt_or_eq_of_le (dot_self_nonneg a) with hlt | heq
  · exact hlt
  · exfalso; apply h
    have hd : a.x * a.x + a.y * a.y + a.z * a.z = 0 := by
      simpa [Vec3.dot] using heq.symm
    have hx0 : a.x = 0 := mul_self_eq_zero.mp (le_antisymm
      (by nlinarith [mul_self_nonneg a.y, mul_self_nonneg a.z]) (mul_self_nonneg _))
    have hy0 : a.y = 0 := mul_self_eq_zero.mp (le_antisymm
      (by nlinarith [mul_self_nonneg a.x, mul_self_nonneg a.z]) (mul_self_nonneg _))
    have hz0 : a.z = 0 := mul_self_eq_zero.mp (le_antisymm
      (by nlinarith [mul_self_nonneg a.x, mul_self_nonneg a.y]) (mul_self_nonneg _))
    cases a with
    | mk ax ay az =>
      simp only at hx0 hy0 hz0
      subst hx0; subst hy0; subst hz0
      rfl

end Vec3

/-- `Ray` from `src/ray.rs`: origin plus direction, direction not necessarily
unit length. -/
structure Ray where
  origin : Vec3
  direction : Vec3

namespace Ray

/-- `Ray::at`: `origin + t * direction`.  Named `«at»` because `at` is a Lean
keyword. -/
def «at» (r : Ray) (t : ℝ) : Vec3 := r.origin + t • r.direction

end Ray

/- Search-interval bounds: the lower bound is a finite `f64`, the upper bound
is either a finite `f64` (`some`) or `f64::INFINITY` (`none`), which is how the
integrator calls `hit` (`0.001..f64::INFINITY`). -/

namespace Iv

/-- `x < hi` where `hi` may be `+∞`. -/
def ltB (x : ℝ) : Option ℝ → Prop
  | none => True
  | some b => x < b

/-- `τ ≤ hi` where `hi` may be `+∞`. -/
def leB (τ : ℝ) : Option ℝ → Prop
  | none => True
  | some b => τ ≤ b

/-- Rust `Range::<f64>::contains`: `start <= x && x < end` (inclusive at the
start, exclusive at the end). -/
def contains (lo : ℝ) (hi : Option ℝ) (x : ℝ) : Prop := lo ≤ x ∧ ltB x hi

theorem leB_of_ltB {τ : ℝ} {hi : Option ℝ} (h : ltB τ hi) : leB τ hi := by
  cases hi with
  | none => trivial
  | some b => exact le_of_lt h

end Iv

/-- `Material` from `src/material.rs`: a tagged union of the three scattering
behaviours. -/
inductive Material where
  | lambertian (albedo : Vec3)
  | metal (albedo : Vec3) (fuzz : ℝ)
  | dielectric (refractive_index : ℝ)

/-- `HitRecord` from `src/hittable.rs`.  The source stores the (possibly
flipped) normal in the field named `outward_normal`. -/
structure HitRecord where
  point : Vec3
  outward_normal : Vec3
  t : ℝ
  front_face : Bool
  material : Material

namespace HitRecord

/-- `HitRecord::calculate_face_normal`: negates the outward normal when the ray
arrives from inside (`dot > 0`), and reports `front_face`. -/
def calculate_face_normal (ray : Ray) (outward_normal : Vec3) : Vec3 × Bool :=
  if ray.direction.dot outward_normal > 0 then (-outward_normal, false)
  else (outward_normal, true)

/-- `HitRecord::new`. -/
def new (point : Vec3) (outward_normal : Vec3) (t : ℝ) (ray : Ray)
    (material : Material) : HitRecord :=
  let fn := calculate_face_normal ray outward_normal
  { point := point, outward_normal := fn.1, t := t, front_face := fn.2,
    material := material }

@[simp] theorem new_point (p n : Vec3) (t : ℝ) (ray : Ray) (m : Material) :
    (new p n t ray m).point = p := rfl

@[simp] theorem new_t (p n : Vec3) (t : ℝ) (ray : Ray) (m : Material) :
    (new p n t ray m).t = t := rfl

@[simp] theorem new_material (p n : Vec3) (t : ℝ) (ray : Ray) (m : Material) :
    (new p n t ray m).material = m := rfl

end HitRecord

/-- `Sphere` from `src/shapes/sphere.rs`. -/
structure Sphere where
  center : Vec3
  radius : ℝ
  material : Material

namespace Sphere

/-- The local `oc` of `Sphere::hit`: `self.center - ray.origin`. -/
def oc (s : Sphere) (ray : Ray) : Vec3 := s.center - ray.origin

/-- The local `a` of `Sphere::hit`: `ray.direction.dot(ray.direction)`. -/
def qa (_s : Sphere) (ray : Ray) : ℝ := ray.direction.dot ray.direction

/-- The local `h` of `Sphere::hit`: `ray.direction.dot(oc)`. -/
def qh (s : Sphere) (ray : Ray) : ℝ := ray.direction.dot (s.oc ray)

/-- The local `c` of `Sphere::hit`: `oc.dot(oc) - radius * radius`. -/
def qc (s : Sphere) (ray : Ray) : ℝ := (s.oc ray).dot (s.oc ray) - s.radius * s.radius

/-- The local `discriminant` of `Sphere::hit`: `h * h - a * c`. -/
def disc (s : Sphere) (ray : Ray) : ℝ := s.qh ray * s.qh ray - s.qa ray * s.qc ray

/-- The first root tried by `Sphere::hit`: `(h - sqrt_disc) / a`. -/
def root1 (s : Sphere) (ray : Ray) : ℝ :=
  (s.qh ray - Real.sqrt (s.disc ray)) / s.qa ray

/-- The second root tried by `Sphere::hit`: `(h + sqrt_disc) / a`. -/
def root2 (s : Sphere) (ray : Ray) : ℝ :=
  (s.qh ray + Real.sqrt (s.disc ray)) / s.qa ray

/-- The record built by the tail of `Sphere::hit` for a root `t`:
`point = ray.at(t)`, `outward_normal = (point - center) / radius`. -/
def record (s : Sphere) (ray : Ray) (t : ℝ) : HitRecord :=
  HitRecord.new (ray.at t) ((ray.at t - s.center) / s.radius) t ray s.material

@[simp] theorem record_t (s : Sphere) (ray : Ray) (t : ℝ) :
    (s.record ray t).t = t := rfl

/-- `Sphere::hit` over the interval `lo..hi` (with `hi = none` standing for
`f64::INFINITY`): negative discriminant means no hit, otherwise the nearer root
is taken if it is in the interval, else the farther root, else no hit. -/
def hit (s : Sphere) (ray : Ray) (lo : ℝ) (hi : Option ℝ) : Option HitRecord :=
  if s.disc ray < 0 then none
  else if Iv.contains lo hi (s.root1 ray) then some (s.record ray (s.root1 ray))
  else if Iv.contains lo hi (s.root2 ray) then some (s.record ray (s.root2 ray))
  else none

end Sphere

/-- One step of the fold inside `HittableList::hit`: the accumulator carries
the current upper bound (`interval.end`, then the nearest `t` so far) and the
current record; each object is queried over `interval.start..acc.0`. -/
def hitStep (ray : Ray) (lo : ℝ) (acc : Option ℝ × Option HitRecord)
    (s : Sphere) : Option ℝ × Option HitRecord :=
  match s.hit ray lo acc.1 with
  | some hit_rec => (some hit_rec.t, some hit_rec)
  | none => acc

namespace HittableList

/-- `HittableList::hit` from `src/hittable.rs`: fold over all objects starting
from `(interval.end, None)`, returning the final record. -/
def hit (objects : List Sphere) (ray : Ray) (lo : ℝ) (hi : Option ℝ) :
    Option HitRecord :=
  (objects.foldl (hitStep ray lo) (hi, none)).2

end HittableList

/-- Modelled from the spec (§4.5) for comparison with `HittableList.hit`: keep
the record of the nearest hit over the FULL interval, a strictly nearer `t`
replacing the current record and an equal `t` keeping the first found. -/
def nearestStep (ray : Ray) (lo : ℝ) (hi : Option ℝ) (acc : Option HitRecord)
    (s : Sphere) : Option HitRecord :=
  match s.hit ray lo hi, acc with
  | some hit_rec, none => some hit_rec
  | some hit_rec, some best =>
      if hit_rec.t < best.t then some hit_rec else some best
  | none, _ => acc

/-- Modelled from the spec (§4.5): the nearest hit over all primitives, ties
keeping the first found. -/
def nearestHit (objects : List Sphere) (ray : Ray) (lo : ℝ) (hi : Option ℝ) :
    Option HitRecord :=
  objects.foldl (nearestStep ray lo hi) none

/-- `near_zero` from `src/material.rs`. -/
def near_zero (v : Vec3) : Prop := |v.x| < 1e-8 ∧ |v.y| < 1e-8 ∧ |v.z| < 1e-8

/-- `reflect` from `src/material.rs`: `v - 2 (v . n) n`. -/
def reflect (v n : Vec3) : Vec3 := v - (2 * v.dot n) • n

/-- `refract` from `src/material.rs`.  Note the Rust precedence:
`-uv.dot(*n).min(1.0)` is `-(min (uv . n) 1)`. -/
def refract (uv n : Vec3) (etai_over_etat : ℝ) : Vec3 :=
  let cos_theta := -(min (uv.dot n) 1)
  let r_out_perp := etai_over_etat • (uv + cos_theta • n)
  let r_out_parallel := (-(Real.sqrt |1 - r_out_perp.length_squared|)) • n
  r_out_perp + r_out_parallel

/-- Schlick approximation `reflectance` from `src/material.rs`. -/
def reflectance (cosine refraction_index : ℝ) : ℝ :=
  let r0 := (1 - refraction_index) / (1 + refraction_index)
  let r0sq := r0 * r0
  r0sq + (1 - r0sq) * (1 - cosine) ^ (5 : ℕ)

/-- The outgoing direction of the `Metal` arm of `Material::scatter`:
`reflect(D, n).normalize() + fuzz * random_unit_vector()`, with the random
unit-vector draw passed in as `rv`. -/
def metalDirection (fuzz : ℝ) (rv : Vec3) (ray : Ray) (hit_record : HitRecord) :
    Vec3 :=
  (reflect ray.direction hit_record.outward_normal).normalize + fuzz • rv

/-- The outgoing direction of the `Dielectric` arm of `Material::scatter`,
given the effective refraction ratio `ri` and the uniform draw `ru` consumed by
`rng.gen::<f64>()`.  Note the Rust precedence in the source:
`unit_direction.dot(n).neg().min(1.0)` is `min (-(unit . n)) 1`. -/
def dielectricDirection (ri ru : ℝ) (ray : Ray) (hit_record : HitRecord) :
    Vec3 :=
  let unit_direction := ray.direction.normalize
  let cos_theta := min (-(unit_direction.dot hit_record.outward_normal)) 1
  let sin_theta := Real.sqrt (1 - cos_theta * cos_theta)
  let cannot_refract := ri * sin_theta > 1
  if cannot_refract ∨ reflectance cos_theta ri > ru then
    reflect unit_direction hit_record.outward_normal
  else
    refract unit_direction hit_record.outward_normal ri

namespace Material

/-- `Material::scatter` from `src/material.rs`.  `rv` is the result of the
`random_unit_vector()` draw (Lambertian and Metal arms) and `ru` the uniform
`rng.gen::<f64>()` draw (Dielectric arm). -/
def scatter (m : Material) (rv : Vec3) (ru : ℝ) (ray : Ray)
    (hit_record : HitRecord) : Option (Vec3 × Ray) :=
  match m with
  | .lambertian albedo =>
      let sd := hit_record.outward_normal + rv
      let scatter_direction := if near_zero sd then hit_record.outward_normal
        else sd
      some (albedo, Ray.mk hit_record.point scatter_direction)
  | .metal albedo fuzz =>
      let scattered := Ray.mk hit_record.point (metalDirection fuzz rv ray hit_record)
      if scattered.direction.dot hit_record.outward_normal > 0 then
        some (albedo, scattered)
      else none
  | .dielectric refractive_index =>
      let ri := if hit_record.front_face then 1 / refractive_index
        else refractive_index
      some (Vec3.mk 1 1 1,
        Ray.mk hit_record.point (dielectricDirection ri ru ray hit_record))

end Material

/-- `lerp` from `src/camera.rs`. -/
def lerp (a : ℝ) (s e : Vec3) : Vec3 := (1 - a) • s + a • e

/-- The miss branch of `Camera::color`: the analytic sky gradient. -/
def background (ray : Ray) : Vec3 :=
  let unit_direction := ray.direction.normalize
  let a := 0.5 * (unit_direction.y + 1)
  lerp a (Vec3.mk 1 1 1) (Vec3.mk 0.5 0.7 1)

namespace Camera

/-- `Camera::color` from `src/camera.rs`: depth 0 returns black; otherwise
query the scene over `0.001..f64::INFINITY`, scatter on a hit (black on
absorption) and recurse with `depth - 1`, or return the sky gradient on a
miss.  The streams `rvs`/`rus` supply the random draws consumed by the
`scatter` call at each remaining depth. -/
def color (world : List Sphere) (rvs : ℕ → Vec3) (rus : ℕ → ℝ) :
    Ray → ℕ → Vec3
  | _, 0 => Vec3.mk 0 0 0
  | ray, Nat.succ d =>
    match HittableList.hit world ray 0.001 none with
    | some hit_record =>
      match hit_record.material.scatter (rvs d) (rus d) ray hit_record with
      | some p => p.1 * color world rvs rus p.2 d
      | none => Vec3.mk 0 0 0
    | none => background ray

end Camera

/-- `MAX_VAL` from `src/camera.rs`. -/
def MAX_VAL : ℕ := 255

/-- `Camera::linear_to_gamma`. -/
def linear_to_gamma (linear_component : ℝ) : ℝ :=
  if linear_component > 0 then Real.sqrt linear_component else 0

/-- Rust `f64::clamp(0.000, 0.999)` as used in `Camera::write_color`. -/
def clamp01 (x : ℝ) : ℝ := min (max x 0) 0.999

/-- One channel of `Camera::write_color`: gamma-correct, clamp to
`[0, 0.999]`, scale by `MAX_VAL` and truncate (`as u8`, modelled by the floor,
which agrees with the cast on the nonnegative values produced here). -/
def writeChannel (x : ℝ) : ℤ := ⌊clamp01 (linear_to_gamma x) * (MAX_VAL : ℝ)⌋

/-- The integer triple written by `Camera::write_color` for one pixel. -/
def write_color (pixel_color : Vec3) : ℤ × ℤ × ℤ :=
  (writeChannel pixel_color.x, writeChannel pixel_color.y,
    writeChannel pixel_color.z)

/-- The sample sum `(0..samples_per_pixel).map(..).sum()` of `Camera::render`. -/
def sampleSum (f : ℕ → Vec3) : ℕ → Vec3
  | 0 => Vec3.mk 0 0 0
  | Nat.succ n => sampleSum f n + f n

/-- The per-pixel sampling loop of `Camera::render`: sum `samples_per_pixel`
radiance estimates and scale by `pixel_samples_scale = 1 / samples_per_pixel`;
`rays i` is the ray produced by `get_ray` for sample `i`. -/
def renderPixel (world : List Sphere) (rvs : ℕ → Vec3) (rus : ℕ → ℝ)
    (rays : ℕ → Ray) (samples_per_pixel max_depth : ℕ) : Vec3 :=
  (1 / (samples_per_pixel : ℝ)) •
    sampleSum (fun i => Camera.color world rvs rus (rays i) max_depth)
      samples_per_pixel

/-- Reduction modulo `2^64`, the wrap of `u64` arithmetic. -/
def wrap64 (n : ℕ) : ℕ := n % 2 ^ 64

/-- `u64::rotate_left` on a value `x < 2^64`: `(x << k | x >> (64 - k))` as a
`u64`; for such `x` the two parts occupy disjoint bit ranges, so the bitwise
`or` is addition modulo `2^64`. -/
def rotl64 (x k : ℕ) : ℕ := wrap64 (x * 2 ^ k + x / 2 ^ (64 - k))

/-- `Xoshiro256` state from `src/fastrand.rs` (four `u64` words). -/
structure Xoshiro256 where
  s0 : ℕ
  s1 : ℕ
  s2 : ℕ
  s3 : ℕ

namespace Xoshiro256

/-- `Xoshiro256::next`: returns the output word and the successor state
(`rotl(s0 +w s3, 23) +w s0`, then the xor/shift state update). -/
def next (st : Xoshiro256) : ℕ × Xoshiro256 :=
  let result := wrap64 (rotl64 (wrap64 (st.s0 + st.s3)) 23 + st.s0)
  let t := wrap64 (st.s1 * 2 ^ 17)
  let s2a := Nat.xor st.s2 st.s0
  let s3a := Nat.xor st.s3 st.s1
  let s1a := Nat.xor st.s1 s2a
  let s0a := Nat.xor st.s0 s3a
  let s2b := Nat.xor s2a t
  let s3b := rotl64 s3a 45
  (result, ⟨s0a, s1a, s2b, s3b⟩)

/-- `Xoshiro256::next_f64`: `(next() >> 11) * 2^-53`, a value in `[0, 1)`. -/
def next_f64 (st : Xoshiro256) : ℝ :=
  ((st.next.1 / 2 ^ 11 : ℕ) : ℝ) * (1 / (2 ^ 53 : ℝ))

theorem next_lt (st : Xoshiro256) : st.next.1 < 2 ^ 64 := by
  have : st.next.1 = wrap64 (rotl64 (wrap64 (st.s0 + st.s3)) 23 + st.s0) := rfl
  rw [this, wrap64]
  exact Nat.mod_lt _ (by norm_num)

theorem next_f64_mem (st : Xoshiro256) :
    0 ≤ st.next_f64 ∧ st.next_f64 < 1 := by
  constructor
  · exact mul_nonneg (Nat.cast_nonneg _) (by norm_num)
  · have hu : st.next.1 / 2 ^ 11 < 2 ^ 53 := by
      have := st.next_lt
      omega
    have hcast : ((st.next.1 / 2 ^ 11 : ℕ) : ℝ) < (2 ^ 53 : ℝ) := by
      exact_mod_cast hu
    calc ((st.next.1 / 2 ^ 11 : ℕ) : ℝ) * (1 / (2 ^ 53 : ℝ))
        < (2 ^ 53 : ℝ) * (1 / (2 ^ 53 : ℝ)) := by
          apply mul_lt_mul_of_pos_right hcast; norm_num
      _ = 1 := by norm_num

end Xoshiro256

/-- `random_in_range` from `src/fastrand.rs`, with the thread-local generator
state at the time of the call passed in explicitly: sort the bounds, draw
`val = next_f64()` and return `a + val * (b - a)`. -/
def random_in_range (st : Xoshiro256) (mn mx : ℝ) : ℝ :=
  let p := if mn ≤ mx then (mn, mx) else (mx, mn)
  let val := st.next_f64
  p.1 + val * (p.2 - p.1)

namespace Sphere

theorem qa_nonneg (s : Sphere) (ray : Ray) : 0 ≤ s.qa ray :=
  Vec3.dot_self_nonneg _

theorem root1_le_root2 (s : Sphere) (ray : Ray) : s.root1 ray ≤ s.root2 ray := by
  unfold root1 root2
  rcases lt_or_eq_of_le (s.qa_nonneg ray) with hpos | hzero
  · apply (div_le_div_iff_of_pos_right hpos).mpr
    have := Real.sqrt_nonneg (s.disc ray)
    linarith
  · rw [← hzero, div_zero, div_zero]

/-- Case characterization of `Sphere::hit` producing a record. -/
theorem hit_eq_some_iff (s : Sphere) (ray : Ray) (lo : ℝ) (hi : Option ℝ)
    (rec : HitRecord) :
    s.hit ray lo hi = some rec ↔
      ¬ s.disc ray < 0 ∧
        ((Iv.contains lo hi (s.root1 ray) ∧ rec = s.record ray (s.root1 ray)) ∨
         (¬ Iv.contains lo hi (s.root1 ray) ∧ Iv.contains lo hi (s.root2 ray) ∧
           rec = s.record ray (s.root2 ray))) := by
  unfold hit
  split_ifs with h1 h2 h3
  · simp [h1]
  · constructor
    · intro h; exact ⟨h1, Or.inl ⟨h2, (Option.some_injective _ h).symm⟩⟩
    · rintro ⟨-, h⟩
      rcases h with ⟨-, hrec⟩ | ⟨hc, -, -⟩
      · rw [hrec]
      · exact absurd h2 hc
  · constructor
    · intro h; exact ⟨h1, Or.inr ⟨h2, h3, (Option.some_injective _ h).symm⟩⟩
    · rintro ⟨-, h⟩
      rcases h with ⟨hc, -⟩ | ⟨-, -, hrec⟩
      · exact absurd hc h2
      · rw [hrec]
  · constructor
    · intro h; exact absurd h (by simp)
    · rintro ⟨-, h⟩
      rcases h with ⟨hc, -⟩ | ⟨-, hc, -⟩
      · exact absurd hc h2
      · exact absurd hc h3

/-- Case characterization of `Sphere::hit` producing no hit. -/
theorem hit_eq_none_iff (s : Sphere) (ray : Ray) (lo : ℝ) (hi : Option ℝ) :
    s.hit ray lo hi = none ↔
      s.disc ray < 0 ∨
        (¬ Iv.contains lo hi (s.root1 ray) ∧ ¬ Iv.contains lo hi (s.root2 ray)) := by
  unfold hit
  split_ifs with h1 h2 h3
  · simp [h1]
  · simp [h1, h2]
  · simp [h1, h2, h3]
  · simp [h1, h2, h3]

/-- Any record returned by `Sphere::hit` has its `t` inside the query
interval. -/
theorem hit_mem (s : Sphere) (ray : Ray) (lo : ℝ) (hi : Option ℝ)
    (rec : HitRecord) (h : s.hit ray lo hi = some rec) :
    Iv.contains lo hi rec.t := by
  rcases (s.hit_eq_some_iff ray lo hi rec).mp h with ⟨-, hc⟩
  rcases hc with ⟨hin, hrec⟩ | ⟨-, hin, hrec⟩ <;> rw [hrec, record_t] <;> exact hin

theorem contains_mono {lo τ : ℝ} {hi : Option ℝ} {x : ℝ}
    (hτ : Iv.leB τ hi) (h : Iv.contains lo (some τ) x) : Iv.contains lo hi x := by
  obtain ⟨h1, h2⟩ := h
  refine ⟨h1, ?_⟩
  cases hi with
  | none => trivial
  | some b => exact lt_of_lt_of_le h2 hτ

/-- Narrowing the upper bound to `τ` keeps a hit whose `t` is below `τ`. -/
theorem hit_narrow_some (s : Sphere) (ray : Ray) (lo τ : ℝ) (hi : Option ℝ)
    (rec : HitRecord) (hτ : Iv.leB τ hi) (h : s.hit ray lo hi = some rec)
    (hlt : rec.t < τ) : s.hit ray lo (some τ) = some rec := by
  rcases (s.hit_eq_some_iff ray lo hi rec).mp h with ⟨hd, hc⟩
  apply (s.hit_eq_some_iff ray lo (some τ) rec).mpr
  refine ⟨hd, ?_⟩
  rcases hc with ⟨hin, hrec⟩ | ⟨hout, hin, hrec⟩
  · left
    refine ⟨⟨hin.1, ?_⟩, hrec⟩
    have : rec.t = s.root1 ray := by rw [hrec, record_t]
    rw [← this]; exact hlt
  · right
    refine ⟨?_, ⟨hin.1, ?_⟩, hrec⟩
    · intro hcon
      exact hout (contains_mono hτ hcon)
    · have : rec.t = s.root2 ray := by rw [hrec, record_t]
      rw [← this]; exact hlt

/-- Narrowing the upper bound to `τ` kills a hit whose `t` is at least `τ`. -/
theorem hit_narrow_none_of_ge (s : Sphere) (ray : Ray) (lo τ : ℝ)
    (hi : Option ℝ) (rec : HitRecord) (hτ : Iv.leB τ hi)
    (h : s.hit ray lo hi = some rec) (hge : τ ≤ rec.t) :
    s.hit ray lo (some τ) = none := by
  rcases (s.hit_eq_some_iff ray lo hi rec).mp h with ⟨hd, hc⟩
  apply (s.hit_eq_none_iff ray lo (some τ)).mpr
  right
  rcases hc with ⟨hin, hrec⟩ | ⟨hout, hin, hrec⟩
  · have ht1 : rec.t = s.root1 ray := by rw [hrec, record_t]
    constructor
    · rintro ⟨-, hlt⟩
      rw [← ht1] at hlt
      exact absurd hge (not_le_of_lt hlt)
    · rintro ⟨-, hlt⟩
      have h12 := s.root1_le_root2 ray
      have : s.root2 ray < s.root2 ray := by
        calc s.root2 ray < τ := hlt
          _ ≤ rec.t := hge
          _ = s.root1 ray := ht1
          _ ≤ s.root2 ray := h12
      exact absurd this (lt_irrefl _)
  · have ht2 : rec.t = s.root2 ray := by rw [hrec, record_t]
    constructor
    · intro hcon
      exact hout (contains_mono hτ hcon)
    · rintro ⟨-, hlt⟩
      rw [← ht2] at hlt
      exact absurd hge (not_le_of_lt hlt)

/-- Narrowing the upper bound preserves the absence of a hit. -/
theorem hit_narrow_none (s : Sphere) (ray : Ray) (lo τ : ℝ) (hi : Option ℝ)
    (hτ : Iv.leB τ hi) (h : s.hit ray lo hi = none) :
    s.hit ray lo (some τ) = none := by
  rcases (s.hit_eq_none_iff ray lo hi).mp h with hd | ⟨h1, h2⟩
  · exact (s.hit_eq_none_iff ray lo (some τ)).mpr (Or.inl hd)
  · apply (s.hit_eq_none_iff ray lo (some τ)).mpr
    right
    exact ⟨fun hc => h1 (contains_mono hτ hc), fun hc => h2 (contains_mono hτ hc)⟩

end Sphere

/-- The fold of `HittableList::hit` computes the same record as the
spec-modelled nearest-hit fold, provided the accumulator is consistent: either
no record yet and the bound is the original upper bound, or the bound is the
`t` of the current record, which lies strictly below the original bound. -/
theorem foldl_hit_eq_nearest (ray : Ray) (lo : ℝ) (hi : Option ℝ) :
    ∀ (l : List Sphere) (b : Option ℝ) (best : Option HitRecord),
      ((best = none ∧ b = hi) ∨
        (∃ r, best = some r ∧ b = some r.t ∧ Iv.ltB r.t hi)) →
      (l.foldl (hitStep ray lo) (b, best)).2 =
        l.foldl (nearestStep ray lo hi) best := by
  intro l
  induction l with
  | nil => intro b best _; rfl
  | cons s l ih =>
    intro b best hinv
    rcases hinv with ⟨hb, hbnd⟩ | ⟨r, hb, hbnd, hlt⟩
    · subst hb; rw [hbnd]
      simp only [List.foldl_cons]
      cases hfull : s.hit ray lo hi with
      | some hit_rec =>
        have hstep : hitStep ray lo (hi, none) s = (some hit_rec.t, some hit_rec) := by
          simp [hitStep, hfull]
        have hspec : nearestStep ray lo hi none s = some hit_rec := by
          simp [nearestStep, hfull]
        rw [hstep, hspec]
        apply ih
        right
        exact ⟨hit_rec, rfl, rfl, (s.hit_mem ray lo hi hit_rec hfull).2⟩
      | none =>
        have hstep : hitStep ray lo (hi, none) s = (hi, none) := by
          simp [hitStep, hfull]
        have hspec : nearestStep ray lo hi none s = none := by
          simp [nearestStep, hfull]
        rw [hstep, hspec]
        exact ih hi none (Or.inl ⟨rfl, rfl⟩)
    · subst hb; subst hbnd
      simp only [List.foldl_cons]
      have hle : Iv.leB r.t hi := Iv.leB_of_ltB hlt
      cases hfull : s.hit ray lo hi with
      | some hit_rec =>
        by_cases hc : hit_rec.t < r.t
        · have hnarrow := s.hit_narrow_some ray lo r.t hi hit_rec hle hfull hc
          have hstep : hitStep ray lo (some r.t, some r) s =
              (some hit_rec.t, some hit_rec) := by
            simp [hitStep, hnarrow]
          have hspec : nearestStep ray lo hi (some r) s = some hit_rec := by
            simp [nearestStep, hfull, hc]
          rw [hstep, hspec]
          apply ih
          right
          refine ⟨hit_rec, rfl, rfl, ?_⟩
          cases hi with
          | none => trivial
          | some bnd =>
            have hlt2 : r.t < bnd := hlt
            exact lt_trans hc hlt2
        · have hge : r.t ≤ hit_rec.t := le_of_not_lt hc
          have hnarrow := s.hit_narrow_none_of_ge ray lo r.t hi hit_rec hle hfull hge
          have hstep : hitStep ray lo (some r.t, some r) s = (some r.t, some r) := by
            simp [hitStep, hnarrow]
          have hspec : nearestStep ray lo hi (some r) s = some r := by
            simp [nearestStep, hfull, hc]
          rw [hstep, hspec]
          exact ih (some r.t) (some r) (Or.inr ⟨r, rfl, rfl, hlt⟩)
      | none =>
        have hnarrow := s.hit_narrow_none ray lo r.t hi hle hfull
        have hstep : hitStep ray lo (some r.t, some r) s = (some r.t, some r) := by
          simp [hitStep, hnarrow]
        have hspec : nearestStep ray lo hi (some r) s = some r := by
          simp [nearestStep, hfull]
        rw [hstep, hspec]
        exact ih (some r.t) (some r) (Or.inr ⟨r, rfl, rfl, hlt⟩)

theorem hittableList_hit_eq_nearestHit (l : List Sphere) (ray : Ray) (lo : ℝ)
    (hi : Option ℝ) : HittableList.hit l ray lo hi = nearestHit l ray lo hi :=
  foldl_hit_eq_nearest ray lo hi l hi none (Or.inl ⟨rfl, rfl⟩)

theorem nearestStep_eq_none_iff (ray : Ray) (lo : ℝ) (hi : Option ℝ)
    (acc : Option HitRecord) (s : Sphere) :
    nearestStep ray lo hi acc s = none ↔
      (acc = none ∧ s.hit ray lo hi = none) := by
  cases hfull : s.hit ray lo hi with
  | some hit_rec =>
    cases acc with
    | none => simp [nearestStep, hfull]
    | some b =>
      simp only [nearestStep, hfull]
      split_ifs <;> simp
  | none =>
    cases acc with
    | none => simp [nearestStep, hfull]
    | some b => simp [nearestStep, hfull]

theorem nearest_foldl_none_iff (ray : Ray) (lo : ℝ) (hi : Option ℝ) :
    ∀ (l : List Sphere) (acc : Option HitRecord),
      l.foldl (nearestStep ray lo hi) acc = none ↔
        (acc = none ∧ ∀ s ∈ l, s.hit ray lo hi = none) := by
  intro l
  induction l with
  | nil => intro acc; simp
  | cons s l ih =>
    intro acc
    simp only [List.foldl_cons]
    rw [ih, nearestStep_eq_none_iff]
    constructor
    · rintro ⟨⟨hacc, hs⟩, htail⟩
      refine ⟨hacc, ?_⟩
      intro s' hs'
      rcases List.mem_cons.mp hs' with rfl | hmem
      · exact hs
      · exact htail s' hmem
    · rintro ⟨hacc, hall⟩
      exact ⟨⟨hacc, hall s (List.mem_cons_self s l)⟩,
        fun s' hmem => hall s' (List.mem_cons_of_mem s hmem)⟩

/-- Case characterization of one spec-fold step producing a record. -/
theorem nearestStep_eq_some (ray : Ray) (lo : ℝ) (hi : Option ℝ)
    (acc : Option HitRecord) (s : Sphere) (r : HitRecord)
    (h : nearestStep ray lo hi acc s = some r) :
    (s.hit ray lo hi = some r ∧
      (∀ b, acc = some b → r.t ≤ b.t)) ∨ acc = some r := by
  cases hfull : s.hit ray lo hi with
  | some hit_rec =>
    cases acc with
    | none =>
      left
      simp only [nearestStep, hfull] at h
      exact ⟨h, by intro b hb; cases hb⟩
    | some b =>
      simp only [nearestStep, hfull] at h
      split_ifs at h with hc
      · left
        refine ⟨h, ?_⟩
        intro b2 hb2
        obtain rfl : b = b2 := Option.some_injective _ hb2
        have : hit_rec = r := Option.some_injective _ h
        rw [← this]
        exact le_of_lt hc
      · right; rw [h]
  | none =>
    cases acc with
    | none => simp [nearestStep, hfull] at h
    | some b =>
      right
      simp only [nearestStep, hfull] at h
      rw [h]

/-- The record produced by the spec fold is no farther than any accumulator
record and than any full-interval hit of a listed sphere. -/
theorem nearest_foldl_min (ray : Ray) (lo : ℝ) (hi : Option ℝ) :
    ∀ (l : List Sphere) (acc : Option HitRecord) (r : HitRecord),
      l.foldl (nearestStep ray lo hi) acc = some r →
        (∀ s ∈ l, ∀ r2, s.hit ray lo hi = some r2 → r.t ≤ r2.t) ∧
        (∀ r0, acc = some r0 → r.t ≤ r0.t) := by
  intro l
  induction l with
  | nil =>
    intro acc r h
    simp only [List.foldl_nil] at h
    constructor
    · intro s hs
      exact absurd hs (List.not_mem_nil s)
    · intro r0 hr0
      rw [hr0] at h
      obtain rfl := Option.some_injective _ h
      exact le_refl _
  | cons s l ih =>
    intro acc r h
    simp only [List.foldl_cons] at h
    obtain ⟨hmin, hacc⟩ := ih (nearestStep ray lo hi acc s) r h
    have hstep_le : ∀ r2, nearestStep ray lo hi acc s = some r2 → r.t ≤ r2.t :=
      hacc
    constructor
    · intro s' hs' r2 h2
      rcases List.mem_cons.mp hs' with rfl | hmem
      · cases hacc2 : acc with
        | none =>
          apply hstep_le
          simp [nearestStep, h2, hacc2]
        | some b =>
          by_cases hc : r2.t < b.t
          · apply hstep_le
            simp [nearestStep, h2, hacc2, hc]
          · have hb : nearestStep ray lo hi acc s' = some b := by
              simp [nearestStep, h2, hacc2, hc]
            exact le_trans (hstep_le b hb) (le_of_not_lt hc)
      · exact hmin s' hmem r2 h2
    · intro r0 hr0
      subst hr0
      cases hfull : s.hit ray lo hi with
      | some hit_rec =>
        by_cases hc : hit_rec.t < r0.t
        · have : nearestStep ray lo hi (some r0) s = some hit_rec := by
            simp [nearestStep, hfull, hc]
          exact le_trans (hstep_le hit_rec this) (le_of_lt hc)
        · apply hstep_le
          simp [nearestStep, hfull, hc]
      | none =>
        apply hstep_le
        simp [nearestStep, hfull]

/-- The record produced by the spec fold is the full-interval hit of one of
the listed spheres (or was already the accumulator). -/
theorem nearest_foldl_mem (ray : Ray) (lo : ℝ) (hi : Option ℝ) :
    ∀ (l : List Sphere) (acc : Option HitRecord) (r : HitRecord),
      l.foldl (nearestStep ray lo hi) acc = some r →
        (∃ s ∈ l, s.hit ray lo hi = some r) ∨ acc = some r := by
  intro l
  induction l with
  | nil =>
    intro acc r h
    right; exact h
  | cons s l ih =>
    intro acc r h
    simp only [List.foldl_cons] at h
    rcases ih (nearestStep ray lo hi acc s) r h with ⟨s', hs', hhit⟩ | hstep
    · exact Or.inl ⟨s', List.mem_cons_of_mem s hs', hhit⟩
    · rcases nearestStep_eq_some ray lo hi acc s r hstep with ⟨hhit, -⟩ | hacc
      · exact Or.inl ⟨s, List.mem_cons_self s l, hhit⟩
      · exact Or.inr hacc

namespace Vec3

theorem dot_neg_right (a b : Vec3) : a.dot (-b) = -(a.dot b) := by
  simp only [dot, neg_x, neg_y, neg_z]; ring

end Vec3

namespace HitRecord

/-- Behaviour of `calculate_face_normal`: the returned normal has
non-positive dot with the ray direction, and the flag records whether the
geometric outward normal already pointed against the ray. -/
theorem calculate_face_normal_spec (ray : Ray) (n : Vec3) :
    ray.direction.dot (calculate_face_normal ray n).1 ≤ 0 ∧
      ((calculate_face_normal ray n).2 = true ↔ ray.direction.dot n ≤ 0) := by
  unfold calculate_face_normal
  split_ifs with hpos
  · refine ⟨?_, ?_⟩
    · rw [Vec3.dot_neg_right]
      linarith
    · exact iff_of_false (by simp) (not_le.mpr hpos)
  · exact ⟨le_of_not_lt hpos, iff_of_true rfl (le_of_not_lt hpos)⟩

end HitRecord

namespace Sphere

@[simp] theorem record_point (s : Sphere) (ray : Ray) (t : ℝ) :
    (s.record ray t).point = ray.at t := rfl

@[simp] theorem record_outward_normal (s : Sphere) (ray : Ray) (t : ℝ) :
    (s.record ray t).outward_normal =
      (HitRecord.calculate_face_normal ray ((ray.at t - s.center) / s.radius)).1 :=
  rfl

@[simp] theorem record_front_face (s : Sphere) (ray : Ray) (t : ℝ) :
    (s.record ray t).front_face =
      (HitRecord.calculate_face_normal ray ((ray.at t - s.center) / s.radius)).2 :=
  rfl

/-- `|ray.at t - center|^2` expands to the quadratic `a t^2 - 2 h t + (c + r^2)`
in the locals of `Sphere::hit`. -/
theorem dist_sq_eval (s : Sphere) (ray : Ray) (t : ℝ) :
    (ray.at t - s.center).dot (ray.at t - s.center) =
      s.qa ray * (t * t) - 2 * s.qh ray * t + (s.qc ray + s.radius * s.radius) := by
  simp only [qa, qh, qc, oc, Ray.at, Vec3.dot, Vec3.add_x, Vec3.add_y, Vec3.add_z,
    Vec3.sub_x, Vec3.sub_y, Vec3.sub_z, Vec3.smul_x, Vec3.smul_y, Vec3.smul_z]
  ring

end Sphere

/-- A root of the half-angle quadratic given via its explicit formula
annihilates `a t^2 - 2 h t + c` whenever `sq` squares to the discriminant. -/
theorem quad_eval (a h c sq t : ℝ) (ha : a ≠ 0)
    (hs : sq * sq = h * h - a * c)
    (ht : t = (h - sq) / a ∨ t = (h + sq) / a) :
    a * (t * t) - 2 * h * t + c = 0 := by
  have hta : t * a = h - sq ∨ t * a = h + sq := by
    rcases ht with ht | ht
    · left; rw [ht, div_mul_cancel₀ _ ha]
    · right; rw [ht, div_mul_cancel₀ _ ha]
  have key : a * (a * (t * t) - 2 * h * t + c) = 0 := by
    rcases hta with hta | hta
    · have hsq : sq = h - t * a := by linarith
      have h2 : (h - t * a) * (h - t * a) = h * h - a * c := by
        rw [← hsq]; exact hs
      linear_combination h2
    · have hsq : sq = t * a - h := by linarith
      have h2 : (t * a - h) * (t * a - h) = h * h - a * c := by
        rw [← hsq]; exact hs
      linear_combination h2
  exact (mul_eq_zero.mp key).resolve_left ha

/-- Concrete unit sphere at the origin used to instantiate the theorems. -/
def S0 : Sphere := ⟨⟨0, 0, 0⟩, 1, Material.lambertian ⟨1, 1, 1⟩⟩

/-- Concrete ray from `(0,0,-2)` toward `+z`, hitting `S0` at `t = 1` and
`t = 3`. -/
def R0 : Ray := ⟨⟨0, 0, -2⟩, ⟨0, 0, 1⟩⟩

theorem S0_qa : S0.qa R0 = 1 := by
  simp [Sphere.qa, S0, R0, Vec3.dot]

theorem S0_qh : S0.qh R0 = 2 := by
  simp [Sphere.qh, Sphere.oc, S0, R0, Vec3.dot]

theorem S0_qc : S0.qc R0 = 3 := by
  simp [Sphere.qc, Sphere.oc, S0, R0, Vec3.dot]
  norm_num

theorem S0_disc : S0.disc R0 = 1 := by
  rw [Sphere.disc, S0_qa, S0_qh, S0_qc]
  norm_num

theorem S0_root1 : S0.root1 R0 = 1 := by
  rw [Sphere.root1, S0_disc, S0_qa, S0_qh, Real.sqrt_one]
  norm_num

theorem S0_root2 : S0.root2 R0 = 3 := by
  rw [Sphere.root2, S0_disc, S0_qa, S0_qh, Real.sqrt_one]
  norm_num

theorem S0_hit (lo : ℝ) (h0 : lo ≤ 1) :
    S0.hit R0 lo (some 10) = some (S0.record R0 1) := by
  unfold Sphere.hit
  rw [S0_disc, S0_root1]
  rw [if_neg (by norm_num)]
  rw [if_pos ⟨h0, show (1 : ℝ) < 10 by norm_num⟩]

theorem R0_direction_ne : R0.direction ≠ 0 := by
  intro h
  have hz : (R0.direction).z = (0 : Vec3).z := by rw [h]
  simp [R0] at hz

/-- C1: for every sphere with radius greater than 0 and every ray (with the
nonzero direction the real-number embedding requires), `Sphere::hit` solves
the half-angle quadratic: a negative discriminant yields no hit; otherwise the
smaller root `(h - sqrt disc)/a` is returned when it lies in the search
interval, else the larger root `(h + sqrt disc)/a` when that lies in the
interval, else no hit; and every returned parameter `t` satisfies
`|O + tD - C|^2 = r^2`. -/
theorem sphere_hit_solves_quadratic (s : Sphere) (ray : Ray) (lo tmax : ℝ)
    (hr : 0 < s.radius) (hd : ray.direction ≠ 0) :
    (s.disc ray < 0 → s.hit ray lo (some tmax) = none) ∧
    (0 ≤ s.disc ray →
      s.root1 ray ≤ s.root2 ray ∧
      (Iv.contains lo (some tmax) (s.root1 ray) →
        s.hit ray lo (some tmax) = some (s.record ray (s.root1 ray))) ∧
      (¬ Iv.contains lo (some tmax) (s.root1 ray) →
        Iv.contains lo (some tmax) (s.root2 ray) →
        s.hit ray lo (some tmax) = some (s.record ray (s.root2 ray))) ∧
      (¬ Iv.contains lo (some tmax) (s.root1 ray) →
        ¬ Iv.contains lo (some tmax) (s.root2 ray) →
        s.hit ray lo (some tmax) = none)) ∧
    (∀ rec, s.hit ray lo (some tmax) = some rec →
      (ray.at rec.t - s.center).dot (ray.at rec.t - s.center) =
        s.radius * s.radius) := by
  have ha : s.qa ray ≠ 0 := ne_of_gt (Vec3.dot_self_pos _ hd)
  refine ⟨?_, ?_, ?_⟩
  · intro hneg
    unfold Sphere.hit
    rw [if_pos hneg]
  · intro hnonneg
    refine ⟨s.root1_le_root2 ray, ?_, ?_, ?_⟩
    · intro hin
      unfold Sphere.hit
      rw [if_neg (not_lt.mpr hnonneg), if_pos hin]
    · intro hout hin
      unfold Sphere.hit
      rw [if_neg (not_lt.mpr hnonneg), if_neg hout, if_pos hin]
    · intro hout1 hout2
      unfold Sphere.hit
      rw [if_neg (not_lt.mpr hnonneg), if_neg hout1, if_neg hout2]
  · intro rec hrec
    obtain ⟨hd0, hcase⟩ := (s.hit_eq_some_iff ray lo (some tmax) rec).mp hrec
    have hnn : 0 ≤ s.disc ray := not_lt.mp hd0
    have hsq : Real.sqrt (s.disc ray) * Real.sqrt (s.disc ray) =
        s.qh ray * s.qh ray - s.qa ray * s.qc ray := by
      rw [Real.mul_self_sqrt hnn]; rfl
    have ht : rec.t = (s.qh ray - Real.sqrt (s.disc ray)) / s.qa ray ∨
        rec.t = (s.qh ray + Real.sqrt (s.disc ray)) / s.qa ray := by
      rcases hcase with ⟨-, hrec_eq⟩ | ⟨-, -, hrec_eq⟩
      · left; rw [hrec_eq, Sphere.record_t, Sphere.root1]
      · right; rw [hrec_eq, Sphere.record_t, Sphere.root2]
    have hq := quad_eval (s.qa ray) (s.qh ray) (s.qc ray)
      (Real.sqrt (s.disc ray)) rec.t ha hsq ht
    rw [s.dist_sq_eval ray rec.t]
    linarith

/-- Witness for C1 at the concrete sphere `S0`, ray `R0` and interval
`0..10`. -/
theorem sphere_hit_solves_quadratic_witness :
    (0 < S0.radius ∧ R0.direction ≠ 0) ∧
    ((S0.disc R0 < 0 → S0.hit R0 0 (some 10) = none) ∧
    (0 ≤ S0.disc R0 →
      S0.root1 R0 ≤ S0.root2 R0 ∧
      (Iv.contains 0 (some 10) (S0.root1 R0) →
        S0.hit R0 0 (some 10) = some (S0.record R0 (S0.root1 R0))) ∧
      (¬ Iv.contains 0 (some 10) (S0.root1 R0) →
        Iv.contains 0 (some 10) (S0.root2 R0) →
        S0.hit R0 0 (some 10) = some (S0.record R0 (S0.root2 R0))) ∧
      (¬ Iv.contains 0 (some 10) (S0.root1 R0) →
        ¬ Iv.contains 0 (some 10) (S0.root2 R0) →
        S0.hit R0 0 (some 10) = none)) ∧
    (∀ rec, S0.hit R0 0 (some 10) = some rec →
      (R0.at rec.t - S0.center).dot (R0.at rec.t - S0.center) =
        S0.radius * S0.radius)) :=
  ⟨⟨by norm_num [S0], R0_direction_ne⟩,
    sphere_hit_solves_quadratic S0 R0 0 10 (by norm_num [S0]) R0_direction_ne⟩

/-- C2: for every ray, search interval and list of primitives,
`HittableList::hit` computes exactly the spec-modelled nearest hit (strictly
nearer `t` replaces, an equal `t` keeps the first found); it returns `None`
exactly when no primitive hits within the interval, and any returned record is
the full-interval hit of one of the listed primitives and has the smallest `t`
among all of them. -/
theorem hittable_list_hit_nearest (l : List Sphere) (ray : Ray) (lo : ℝ)
    (hi : Option ℝ) :
    HittableList.hit l ray lo hi = nearestHit l ray lo hi ∧
    (HittableList.hit l ray lo hi = none ↔ ∀ s ∈ l, s.hit ray lo hi = none) ∧
    (∀ rec, HittableList.hit l ray lo hi = some rec →
      (∃ s ∈ l, s.hit ray lo hi = some rec) ∧
      (∀ s ∈ l, ∀ r2, s.hit ray lo hi = some r2 → rec.t ≤ r2.t)) := by
  have heq := hittableList_hit_eq_nearestHit l ray lo hi
  refine ⟨heq, ?_, ?_⟩
  · rw [heq]
    unfold nearestHit
    rw [nearest_foldl_none_iff]
    simp
  · intro rec hrec
    rw [heq] at hrec
    unfold nearestHit at hrec
    constructor
    · rcases nearest_foldl_mem ray lo hi l none rec hrec with h | h
      · exact h
      · cases h
    · exact (nearest_foldl_min ray lo hi l none rec hrec).1

/-- C3 counterexample: a root exactly equal to the lower interval bound IS
returned as a hit — `S0` is hit by `R0` at `t = 1` over the interval `1..10`,
whose lower bound is `1`, because Rust's `Range::contains` is inclusive at the
start. -/
theorem sphere_hit_lower_boundary_counterexample :
    S0.hit R0 1 (some 10) = some (S0.record R0 1) ∧ (S0.record R0 1).t = 1 :=
  ⟨S0_hit 1 le_rfl, rfl⟩

/-- C3 (amended): a root exactly equal to the upper bound `t_max` is rejected
(every returned hit has `t < t_max`), while a root exactly equal to the lower
bound `t_min` is accepted: the returned parameter always satisfies
`t_min ≤ t < t_max`, matching the half-open `Range::contains`. -/
theorem sphere_hit_interval_boundaries (s : Sphere) (ray : Ray)
    (tmin tmax : ℝ) (rec : HitRecord)
    (h : s.hit ray tmin (some tmax) = some rec) :
    tmin ≤ rec.t ∧ rec.t < tmax :=
  s.hit_mem ray tmin (some tmax) rec h

/-- Witness for the amended C3 at the concrete sphere `S0` and ray `R0`. -/
theorem sphere_hit_interval_boundaries_witness :
    S0.hit R0 1 (some 10) = some (S0.record R0 1) ∧
      (1 ≤ (S0.record R0 1).t ∧ (S0.record R0 1).t < 10) :=
  ⟨S0_hit 1 le_rfl,
    sphere_hit_interval_boundaries S0 R0 1 10 (S0.record R0 1) (S0_hit 1 le_rfl)⟩

/-- C4: every hit record produced by the sphere intersection test has a
stored normal with non-positive dot against the incoming ray direction, and
`front_face` is true exactly when the geometric outward normal
`(point - center)/radius` already pointed against the ray. -/
theorem hit_record_orientation (s : Sphere) (ray : Ray) (lo : ℝ)
    (hi : Option ℝ) (rec : HitRecord) (h : s.hit ray lo hi = some rec) :
    ray.direction.dot rec.outward_normal ≤ 0 ∧
      (rec.front_face = true ↔
        ray.direction.dot ((rec.point - s.center) / s.radius) ≤ 0) := by
  obtain ⟨-, hcase⟩ := (s.hit_eq_some_iff ray lo hi rec).mp h
  have key : ∀ t, rec = s.record ray t →
      ray.direction.dot rec.outward_normal ≤ 0 ∧
      (rec.front_face = true ↔
        ray.direction.dot ((rec.point - s.center) / s.radius) ≤ 0) := by
    intro t hrec
    subst hrec
    have hs := HitRecord.calculate_face_normal_spec ray
      ((ray.at t - s.center) / s.radius)
    simp only [Sphere.record_outward_normal, Sphere.record_front_face,
      Sphere.record_point]
    exact hs
  rcases hcase with ⟨-, hrec⟩ | ⟨-, -, hrec⟩
  · exact key _ hrec
  · exact key _ hrec

/-- Witness for C4 at the concrete sphere `S0` and ray `R0`. -/
theorem hit_record_orientation_witness :
    S0.hit R0 0 (some 10) = some (S0.record R0 1) ∧
    (R0.direction.dot (S0.record R0 1).outward_normal ≤ 0 ∧
      ((S0.record R0 1).front_face = true ↔
        R0.direction.dot (((S0.record R0 1).point - S0.center) / S0.radius) ≤ 0)) :=
  ⟨S0_hit 0 (by norm_num),
    hit_record_orientation S0 R0 0 (some 10) (S0.record R0 1)
      (S0_hit 0 (by norm_num))⟩

/-- C5: `Metal` scatter returns `Some((albedo, scattered))` with the outgoing
direction `normalize(reflect(D, n)) + fuzz * rv` exactly when that direction
has positive dot product with the surface normal, and returns `None` (the ray
is absorbed) exactly otherwise. -/
theorem metal_scatter_iff (albedo : Vec3) (fuzz : ℝ) (rv : Vec3) (ru : ℝ)
    (ray : Ray) (rec : HitRecord) :
    (Material.scatter (.metal albedo fuzz) rv ru ray rec =
        some (albedo, Ray.mk rec.point (metalDirection fuzz rv ray rec)) ↔
      0 < (metalDirection fuzz rv ray rec).dot rec.outward_normal) ∧
    (Material.scatter (.metal albedo fuzz) rv ru ray rec = none ↔
      ¬ 0 < (metalDirection fuzz rv ray rec).dot rec.outward_normal) := by
  unfold Material.scatter
  by_cases hc : (metalDirection fuzz rv ray rec).dot rec.outward_normal > 0
  · constructor
    · simp only [if_pos hc]
      exact iff_of_true trivial hc
    · simp only [if_pos hc]
      exact iff_of_false (by simp) (by exact not_not_intro hc)
  · constructor
    · simp only [if_neg hc]
      exact iff_of_false (by simp) hc
    · simp only [if_neg hc]
      exact iff_of_true trivial hc

/-- C6: `Dielectric` scatter always returns `Some`, its attenuation component
is exactly `(1,1,1)`, and the effective refraction ratio fed to the direction
computation is `1/refractive_index` when `front_face` is true and
`refractive_index` otherwise. -/
theorem dielectric_scatter_total (refractive_index : ℝ) (rv : Vec3) (ru : ℝ)
    (ray : Ray) (rec : HitRecord) :
    Material.scatter (.dielectric refractive_index) rv ru ray rec =
      some (Vec3.mk 1 1 1,
        Ray.mk rec.point
          (dielectricDirection
            (if rec.front_face then 1 / refractive_index else refractive_index)
            ru ray rec)) ∧
    (rec.front_face = true →
      (if rec.front_face then 1 / refractive_index else refractive_index) =
        1 / refractive_index) ∧
    (rec.front_face = false →
      (if rec.front_face then 1 / refractive_index else refractive_index) =
        refractive_index) := by
  refine ⟨rfl, ?_, ?_⟩
  · intro h; rw [h]; simp
  · intro h; rw [h]; simp

/-- C7: the integrator `Camera::color` called with depth 0 returns black, and
consequently the degenerate render with `samples_per_pixel = 1` and
`max_depth = 0` writes the integer triple `0 0 0` for every pixel, regardless
of the scene, the sample rays and the random draws. -/
theorem color_depth_zero_black :
    (∀ (world : List Sphere) (rvs : ℕ → Vec3) (rus : ℕ → ℝ) (ray : Ray),
      Camera.color world rvs rus ray 0 = Vec3.mk 0 0 0) ∧
    (∀ (world : List Sphere) (rvs : ℕ → Vec3) (rus : ℕ → ℝ) (rays : ℕ → Ray),
      write_color (renderPixel world rvs rus rays 1 0) = (0, 0, 0)) := by
  constructor
  · intro world rvs rus ray
    rfl
  · intro world rvs rus rays
    have h1 : sampleSum (fun i => Camera.color world rvs rus (rays i) 0) 1 =
        Vec3.mk 0 0 0 + Vec3.mk 0 0 0 := rfl
    have hpix : renderPixel world rvs rus rays 1 0 = Vec3.mk 0 0 0 := by
      unfold renderPixel
      rw [h1]
      ext
      · simp
      · simp
      · simp
    rw [hpix]
    have hch : writeChannel 0 = 0 := by
      unfold writeChannel clamp01 linear_to_gamma
      rw [if_neg (lt_irrefl 0)]
      norm_num
    unfold write_color
    simp only []
    rw [hch]

/-- C8 counterexample: with equal bounds (`min = max = 1`) the claimed
half-open interval `[min, max)` is empty, yet `random_in_range` returns `1` —
so the returned value is NOT in `[min, max)` for this pair of bounds. -/
theorem random_in_range_counterexample :
    random_in_range ⟨0, 0, 0, 0⟩ 1 1 = 1 ∧
      ¬ (1 ≤ random_in_range ⟨0, 0, 0, 0⟩ 1 1 ∧
          random_in_range ⟨0, 0, 0, 0⟩ 1 1 < 1) := by
  have h1 : random_in_range ⟨0, 0, 0, 0⟩ 1 1 = 1 := by
    simp [random_in_range]
  refine ⟨h1, ?_⟩
  rw [h1]
  rintro ⟨-, hlt⟩
  exact lt_irrefl _ hlt

/-- C8 (amended): whenever the two bounds differ, `random_in_range` returns a
value in the half-open interval `[min, max)`, first swapping the bounds when
they are given reversed; when the bounds are equal it returns that common
bound (the interval `[min, max)` is then empty). -/
theorem random_in_range_mem (st : Xoshiro256) (mn mx : ℝ) (hne : mn ≠ mx) :
    min mn mx ≤ random_in_range st mn mx ∧
      random_in_range st mn mx < max mn mx := by
  obtain ⟨hv0, hv1⟩ := st.next_f64_mem
  unfold random_in_range
  rcases le_or_lt mn mx with hle | hlt
  · have hlt2 : mn < mx := lt_of_le_of_ne hle hne
    rw [if_pos hle]
    simp only []
    constructor
    · have h0 : 0 ≤ st.next_f64 * (mx - mn) := mul_nonneg hv0 (by linarith)
      have hm : min mn mx = mn := min_eq_left hle
      rw [hm]; linarith
    · have h1 : st.next_f64 * (mx - mn) < 1 * (mx - mn) :=
        mul_lt_mul_of_pos_right hv1 (by linarith)
      have hm : max mn mx = mx := max_eq_right hle
      rw [hm]; linarith
  · rw [if_neg (not_le.mpr hlt)]
    simp only []
    constructor
    · have h0 : 0 ≤ st.next_f64 * (mn - mx) := mul_nonneg hv0 (by linarith)
      have hm : min mn mx = mx := min_eq_right (le_of_lt hlt)
      rw [hm]; linarith
    · have h1 : st.next_f64 * (mn - mx) < 1 * (mn - mx) :=
        mul_lt_mul_of_pos_right hv1 (by linarith)
      have hm : max mn mx = mn := max_eq_left (le_of_lt hlt)
      rw [hm]; linarith

/-- Witness for the amended C8 at a concrete generator state and the bounds
`0` and `1`. -/
theorem random_in_range_mem_witness :
    (0 : ℝ) ≠ 1 ∧
      (min (0 : ℝ) 1 ≤ random_in_range ⟨0, 0, 0, 0⟩ 0 1 ∧
        random_in_range ⟨0, 0, 0, 0⟩ 0 1 < max (0 : ℝ) 1) :=
  ⟨by norm_num, random_in_range_mem ⟨0, 0, 0, 0⟩ 0 1 (by norm_num)⟩

theorem writeChannel_bounds (x : ℝ) :
    0 ≤ writeChannel x ∧ writeChannel x ≤ 254 := by
  have hval : (MAX_VAL : ℝ) = 255 := by norm_num [MAX_VAL]
  have h0 : 0 ≤ clamp01 (linear_to_gamma x) :=
    le_min (le_max_right _ _) (by norm_num)
  have h1 : clamp01 (linear_to_gamma x) ≤ 0.999 := min_le_right _ _
  constructor
  · unfold writeChannel
    apply Int.floor_nonneg.mpr
    rw [hval]
    exact mul_nonneg h0 (by norm_num)
  · unfold writeChannel
    have hlt : ⌊clamp01 (linear_to_gamma x) * (MAX_VAL : ℝ)⌋ < 255 := by
      apply Int.floor_lt.mpr
      rw [hval]
      push_cast
      nlinarith
    omega

/-- C9: each of the three channel integers written by `write_color` lies in
`[0, 254]` (the gamma-corrected channel is clamped to `[0, 0.999]` and scaled
by 255 before truncation, so the value 255 can never appear in the pixel
data), even though the header constant `MAX_VAL` declares 255 as the maximum
channel value. -/
theorem write_color_channels_in_range (c : Vec3) :
    (0 ≤ (write_color c).1 ∧ (write_color c).1 ≤ 254) ∧
    (0 ≤ (write_color c).2.1 ∧ (write_color c).2.1 ≤ 254) ∧
    (0 ≤ (write_color c).2.2 ∧ (write_color c).2.2 ≤ 254) ∧
    MAX_VAL = 255 :=
  ⟨writeChannel_bounds c.x, writeChannel_bounds c.y, writeChannel_bounds c.z,
    rfl⟩

/-- C10: for every material variant, whenever `scatter` returns `Some` the
scattered ray's origin is exactly the hit record's intersection point. -/
theorem scatter_origin_eq_hit_point (m : Material) (rv : Vec3) (ru : ℝ)
    (ray : Ray) (rec : HitRecord) (att : Vec3) (scattered : Ray)
    (h : Material.scatter m rv ru ray rec = some (att, scattered)) :
    scattered.origin = rec.point := by
  cases m with
  | lambertian albedo =>
    simp only [Material.scatter] at h
    have hp := Option.some_injective _ h
    rw [Prod.mk.injEq] at hp
    rw [← hp.2]
  | metal albedo fuzz =>
    simp only [Material.scatter] at h
    split_ifs at h with hc
    have hp := Option.some_injective _ h
    rw [Prod.mk.injEq] at hp
    rw [← hp.2]
  | dielectric refractive_index =>
    simp only [Material.scatter] at h
    have hp := Option.some_injective _ h
    rw [Prod.mk.injEq] at hp
    rw [← hp.2]

/-- A concrete hit record used to instantiate the scattering theorems. -/
def rec0 : HitRecord :=
  ⟨⟨0, 0, 0⟩, ⟨0, 0, 1⟩, 1, true, Material.lambertian ⟨1, 1, 1⟩⟩

/-- Witness for C10: a concrete Lambertian scatter whose outgoing ray starts
at the record's intersection point. -/
theorem scatter_origin_eq_hit_point_witness :
    Material.scatter (.lambertian ⟨1, 1, 1⟩) ⟨0, 0, 1⟩ 0 R0 rec0 =
        some (⟨1, 1, 1⟩, Ray.mk (⟨0, 0, 0⟩ : Vec3) (⟨0, 0, 2⟩ : Vec3)) ∧
      (Ray.mk (⟨0, 0, 0⟩ : Vec3) (⟨0, 0, 2⟩ : Vec3)).origin = rec0.point := by
  have hnz : ¬ near_zero (rec0.outward_normal + ⟨0, 0, 1⟩) := by
    intro hcon
    have hz := hcon.2.2
    simp [rec0] at hz
    norm_num at hz
  have hEq : Material.scatter (.lambertian ⟨1, 1, 1⟩) ⟨0, 0, 1⟩ 0 R0 rec0 =
      some (⟨1, 1, 1⟩, Ray.mk (⟨0, 0, 0⟩ : Vec3) (⟨0, 0, 2⟩ : Vec3)) := by
    simp only [Material.scatter, if_neg hnz]
    have hd : rec0.outward_normal + (⟨0, 0, 1⟩ : Vec3) = (⟨0, 0, 2⟩ : Vec3) := by
      ext <;> simp [rec0] <;> norm_num
    rw [hd]
    rfl
  exact ⟨hEq, scatter_origin_eq_hit_point _ _ _ _ _ _ _ hEq⟩
